import Mathlib

/-!
Shallow embedding of `src/pdf_chapter_splitter.py` (the segmentation core of
the pdf-chapter-splitter repository), together with theorems settling the
frozen claims about its specification.

Python `int` values are modelled as `Int`; Python dicts
`{"title": ..., "page_index": ..., "level": ...}` and
`{"name": ..., "start_page": ..., "end_page": ..., "total_pages": ...}`
are modelled as the structures `Anchor` and `Segment`.  Python's stable
in-place `list.sort(key=...)` is modelled by `List.insertionSort` on a
key-comparison relation (insertion sort is stable and sorted, which
determines the same output list as any stable sort, Timsort included);
the in-place mutation of the argument list is modelled explicitly by
`calcInputAfter`, the contents of the caller's list after the call.
-/

/-- One outline bookmark record, as built by `get_pdf_outline_info`
(`{"title": title, "page_index": page_index, "level": level}`). -/
structure Anchor where
  title : String
  page_index : Int
  level : Int
deriving DecidableEq, Repr

/-- One output section record, as built by `calculate_page_ranges`
(`{"name": ..., "start_page": ..., "end_page": ..., "total_pages": ...}`). -/
structure Segment where
  name : String
  start_page : Int
  end_page : Int
  total_pages : Int
deriving DecidableEq, Repr

/-- The sort key relation of `outline_info.sort(key=lambda x: x["page_index"])`
(line 123 of `pdf_chapter_splitter.py`). -/
def anchorLE (a b : Anchor) : Prop := a.page_index ≤ b.page_index

instance : DecidableRel anchorLE := fun a b => Int.decLe a.page_index b.page_index

instance : IsTotal Anchor anchorLE := ⟨fun a b => Int.le_total a.page_index b.page_index⟩

instance : IsTrans Anchor anchorLE := ⟨fun _ _ _ h h2 => le_trans h h2⟩

/-- The sort key relation of `covered_ranges.sort(key=lambda x: x[0])`
(line 162). -/
def rangeLE (x y : Int × Int) : Prop := x.1 ≤ y.1

instance : DecidableRel rangeLE := fun x y => Int.decLe x.1 y.1

instance : IsTotal (Int × Int) rangeLE := ⟨fun x y => Int.le_total x.1 y.1⟩

instance : IsTrans (Int × Int) rangeLE := ⟨fun _ _ _ h h2 => le_trans h h2⟩

/-- Comparison of segments by `start_page` (the spec's downstream ordering). -/
def segLE (a b : Segment) : Prop := a.start_page ≤ b.start_page

instance : DecidableRel segLE := fun a b => Int.decLe a.start_page b.start_page

instance : IsTotal Segment segLE := ⟨fun a b => Int.le_total a.start_page b.start_page⟩

instance : IsTrans Segment segLE := ⟨fun _ _ _ h h2 => le_trans h h2⟩

/-- Strict comparison of segments by `start_page`. -/
def segLT (a b : Segment) : Prop := a.start_page < b.start_page

instance : IsAntisymm Segment segLT :=
  ⟨fun _ _ h h2 => absurd (lt_trans h h2) (lt_irrefl _)⟩

/-- Strict comparison of anchors by `page_index`. -/
def anchorLT (a b : Anchor) : Prop := a.page_index < b.page_index

instance : IsAntisymm Anchor anchorLT :=
  ⟨fun _ _ h h2 => absurd (lt_trans h h2) (lt_irrefl _)⟩

/-- `outline_info.sort(key=lambda x: x["page_index"])` — Python's stable sort
by page index (line 123). -/
def sortAnchors (l : List Anchor) : List Anchor := List.insertionSort anchorLE l

/-- The main loop of `calculate_page_ranges` (lines 130-156): for each anchor
of the (already sorted) list, the chapter range starts at its page index and
ends one page before the next anchor's page index (or at `total_pages - 1`
for the last anchor); a range with `start_index > end_index` is dropped.
Returns the kept `(title, start_index, end_index)` triples, from which both
`sections` (1-based) and `covered_ranges` (0-based) are read off. -/
def buildRanges : List Anchor → Int → List (String × Int × Int)
  | [], _ => []
  | [a], total_pages =>
      if a.page_index > total_pages - 1 then []
      else [(a.title, a.page_index, total_pages - 1)]
  | a :: b :: rest, total_pages =>
      if a.page_index > b.page_index - 1 then buildRanges (b :: rest) total_pages
      else (a.title, a.page_index, b.page_index - 1) :: buildRanges (b :: rest) total_pages

/-- Conversion of one kept range to its `sections` entry (lines 145-154):
1-based `start_page`/`end_page` and the computed `total_pages` count. -/
def segOfRange : String × Int × Int → Segment
  | (t, s, e) =>
      { name := t
        start_page := s + 1
        end_page := e + 1
        total_pages := (e + 1) - (s + 1) + 1 }

/-- The gap-detection walk of `calculate_page_ranges` (lines 163-187): walk
the sorted covered ranges with a `current_page` cursor starting at 0,
emitting an "Unidentified Pages" segment for each stretch before the next
covered range, and a final one if the cursor ends before `total_pages`. -/
def gapWalk : List (Int × Int) → Int → Int → List Segment
  | [], current_page, total_pages =>
      if current_page < total_pages then
        [{ name := "Unidentified Pages " ++ toString (current_page + 1) ++ "-"
              ++ toString total_pages
           start_page := current_page + 1
           end_page := total_pages
           total_pages := total_pages - current_page }]
      else []
  | (s, e) :: rest, current_page, total_pages =>
      (if current_page < s then
        [{ name := "Unidentified Pages " ++ toString (current_page + 1) ++ "-"
              ++ toString ((s - 1) + 1)
           start_page := current_page + 1
           end_page := (s - 1) + 1
           total_pages := (s - 1) - current_page + 1 }]
      else []) ++ gapWalk rest (e + 1) total_pages

/-- `calculate_page_ranges(outline_info, total_pages)` (lines 114-189):
sort the anchors by page index, build the kept chapter ranges, convert them
to 1-based `sections`, sort the covered ranges by start, and walk them for
gaps.  Returns `(sections, unidentified_sections)`. -/
def calculate_page_ranges (outline_info : List Anchor) (total_pages : Int) :
    List Segment × List Segment :=
  let sorted := sortAnchors outline_info
  let kept := buildRanges sorted total_pages
  let sections := kept.map segOfRange
  let covered_ranges := kept.map (fun r => (r.2.1, r.2.2))
  let covered_sorted := List.insertionSort rangeLE covered_ranges
  (sections, gapWalk covered_sorted 0 total_pages)

/-- The contents of the caller's `outline_info` list after
`calculate_page_ranges` returns: line 123 sorts the list in place
(`outline_info.sort(key=lambda x: x["page_index"])`), so the caller's list
object ends up stably sorted by page index. -/
def calcInputAfter (outline_info : List Anchor) : List Anchor :=
  sortAnchors outline_info

/-- The merged list the caller builds in `split_pdf_by_chapters`
(lines 336-341): `sections.extend(unidentified_sections)` — the gap segments
are appended after the chapter segments, with no re-sort — and this list is
what `perform_pdf_split` and `generate_chapter_summary` receive. -/
def downstreamSegments (outline_info : List Anchor) (total_pages : Int) :
    List Segment :=
  (calculate_page_ranges outline_info total_pages).1
    ++ (calculate_page_ranges outline_info total_pages).2

/-- The merged-and-sorted sequence the spec's Partition Invariant quantifies
over: chapter segments plus gap segments, sorted by `start_page`. -/
def mergedSortedSegments (outline_info : List Anchor) (total_pages : Int) :
    List Segment :=
  List.insertionSort segLE (downstreamSegments outline_info total_pages)

/-- `tilesB segs lo hi`: the segment list exactly tiles the 1-based page
interval `[lo, hi]`: on a nonempty list this says the first segment's
`start_page` is `lo`, every segment is nonempty (`start_page ≤ end_page`),
every next segment starts exactly one page after the previous one ends, and
the last segment's `end_page` is `hi`; the empty list tiles only the empty
interval (`lo = hi + 1`). -/
def tilesB : List Segment → Int → Int → Bool
  | [], lo, hi => decide (lo = hi + 1)
  | s :: rest, lo, hi =>
      decide (s.start_page = lo) && decide (s.start_page ≤ s.end_page)
        && tilesB rest (s.end_page + 1) hi

/-- `rangeChainB rs lo hi`: the 0-based ranges form a contiguous chain
exactly covering `[lo, hi]`: on a nonempty list the first range starts at
`lo`, every range is nonempty, every next range starts right after the
previous one ends, and the last range ends at `hi`; the empty list covers
only the empty interval (`lo = hi + 1`). -/
def rangeChainB : List (Int × Int) → Int → Int → Bool
  | [], lo, hi => decide (lo = hi + 1)
  | (s, e) :: rest, lo, hi =>
      decide (s = lo) && decide (s ≤ e) && rangeChainB rest (e + 1) hi

/-! ### Anchor Normalizer: string pattern model

The regular expressions of `filter_top_level_chapters` (lines 61-112) are
modelled over `List Char`, with the character classes `\d`, `\s`, `[A-Z]`
taken over their ASCII ranges.  All patterns of the exclusion and chapter
lists are anchored with `^`, so `re.search` on them is a prefix test; the
deduplication-key pattern `(Chapter|Appendix)\s+([\dA-Z]+)` is unanchored,
so `re.search` scans for the leftmost match. -/

/-- Python's `\s` class (ASCII range): space, tab, and the newline family. -/
def pySpace (c : Char) : Bool :=
  c = ' ' || c = '\t' || c = '\n' || c = '\r' || c = '\x0b' || c = '\x0c'

/-- The `[\dA-Z]` class of the deduplication-key pattern. -/
def keyClass (c : Char) : Bool := c.isDigit || (c.isUpper)

/-- `^\d+\.\d+` — the numeric-subsection exclusion pattern (line 73). -/
def matchesSubsection (t : List Char) : Bool :=
  (t.takeWhile Char.isDigit) ≠ [] &&
    (match t.dropWhile Char.isDigit with
     | '.' :: c :: _ => c.isDigit
     | _ => false)

/-- The literal-prefix exclusion patterns of lines 74-81
(`^Glossary`, `^References`, ...). -/
def excludeLiterals : List String :=
  ["Glossary", "References", "Index", "Solutions", "Review Questions",
   "Critical Thinking Questions", "Self-Check Questions", "Key Concepts"]

/-- `re.search(pattern, title, re.IGNORECASE)` over the exclusion list
(line 91): a case-insensitive prefix test for the literal patterns plus the
numeric-subsection pattern (which has no letters, so IGNORECASE is inert). -/
def isExcluded (title : String) : Bool :=
  matchesSubsection title.data ||
    excludeLiterals.any (fun p =>
      List.isPrefixOf (p.data.map Char.toLower) (title.data.map Char.toLower))

/-- `^Chapter\s+\d+` (line 67). -/
def matchesChapterHeading (t : List Char) : Bool :=
  List.isPrefixOf "Chapter".data t &&
    (let rest := t.drop 7
     (rest.takeWhile pySpace) ≠ [] &&
       (match rest.dropWhile pySpace with
        | c :: _ => c.isDigit
        | [] => false))

/-- `^Appendix\s+[A-Z]` (line 68). -/
def matchesAppendixHeading (t : List Char) : Bool :=
  List.isPrefixOf "Appendix".data t &&
    (let rest := t.drop 8
     (rest.takeWhile pySpace) ≠ [] &&
       (match rest.dropWhile pySpace with
        | c :: _ => c.isUpper
        | [] => false))

/-- `is_chapter` (line 95): `any(re.search(p, title) for p in chapter_patterns)`. -/
def isChapterTitle (title : String) : Bool :=
  matchesChapterHeading title.data || matchesAppendixHeading title.data

/-- One attempt of the key pattern `(Chapter|Appendix)\s+([\dA-Z]+)` at a
fixed start position: the alternation tries `Chapter` first, then
`Appendix`; `\s+` and `[\dA-Z]+` are greedy over disjoint classes, so each
must match at least one character with no backtracking.  On success the
result is the Python `f"{group(1)} {group(2)}"` key of line 104. -/
def matchKeyAt (t : List Char) : Option String :=
  let tryWord : String → Option String := fun w =>
    if List.isPrefixOf w.data t then
      let rest := t.drop w.data.length
      let ws := rest.takeWhile pySpace
      let ident := (rest.dropWhile pySpace).takeWhile keyClass
      if ws ≠ [] && ident ≠ [] then some (w ++ " " ++ String.mk ident) else none
    else none
  (tryWord "Chapter").orElse (fun _ => tryWord "Appendix")

/-- `re.search(r'(Chapter|Appendix)\s+([\dA-Z]+)', title)` (line 101):
scan start positions left to right and return the first full match. -/
def searchKey : List Char → Option String
  | [] => none
  | c :: rest => (matchKeyAt (c :: rest)).orElse (fun _ => searchKey rest)

/-- The deduplication key `chapter_key` of lines 101-104 (`None` when the
pattern does not match anywhere in the title). -/
def chapterKey (title : String) : Option String := searchKey title.data

/-- Whether an anchor passes its own, seen-set-independent part of the
filter: not excluded, and either a chapter/appendix heading or level 0
(`(is_chapter or is_top_level)` of line 107). -/
def keepAnchor (a : Anchor) : Bool :=
  !(isExcluded a.title) && (isChapterTitle a.title || a.level = 0)

/-- The loop of `filter_top_level_chapters` (lines 87-110), with the
`seen_chapters` set threaded as a list of keys. -/
def ftlGo : List Anchor → List String → List Anchor
  | [], _ => []
  | item :: rest, seen =>
      if isExcluded item.title then ftlGo rest seen
      else
        match chapterKey item.title with
        | none =>
            if isChapterTitle item.title || item.level = 0 then
              item :: ftlGo rest seen
            else ftlGo rest seen
        | some k =>
            if (isChapterTitle item.title || item.level = 0) && !(seen.contains k) then
              item :: ftlGo rest (k :: seen)
            else ftlGo rest seen

/-- `filter_top_level_chapters(outline_info)` (lines 61-112). -/
def filter_top_level_chapters (outline_info : List Anchor) : List Anchor :=
  ftlGo outline_info []

/-- The state of `seen_chapters` after processing a prefix of the input
(used to decompose `ftlGo` over list append). -/
def seenAfter : List Anchor → List String → List String
  | [], seen => seen
  | item :: rest, seen =>
      if isExcluded item.title then seenAfter rest seen
      else
        match chapterKey item.title with
        | none => seenAfter rest seen
        | some k =>
            if (isChapterTitle item.title || item.level = 0) && !(seen.contains k) then
              seenAfter rest (k :: seen)
            else seenAfter rest seen

/-! ### Outline traversal model

A PDF outline as traversed by `get_pdf_outline_info` (lines 31-59): a list
whose items are either resolved bookmark destinations (title plus the page
index that `get_page_number` produced, `none` when it could not be
resolved) or nested sub-outlines. -/

inductive OutlineItem where
  | dest (title : String) (page : Option Int)
  | sub (items : List OutlineItem)
deriving Repr

/-- The loop body of `get_pdf_outline_info`: a `Destination` item is emitted
at the current `level` whenever its page resolved (with a warning and no
record otherwise); a nested list is recursed into with `level + 1`, but only
while `level < max_level`.  Note that emission itself never compares `level`
with `max_level` — only the recursion does. -/
def outlineGo : List OutlineItem → Int → Int → List Anchor
  | [], _, _ => []
  | .dest title page :: rest, level, max_level =>
      (match page with
       | some p => [{ title := title, page_index := p, level := level }]
       | none => []) ++ outlineGo rest level max_level
  | .sub items :: rest, level, max_level =>
      (if level < max_level then outlineGo items (level + 1) max_level else [])
        ++ outlineGo rest level max_level
termination_by l => sizeOf l

/-- `get_pdf_outline_info(outline, reader, level, max_level)` (lines 31-59),
with the PDF reader abstracted away into the resolved pages stored in the
`OutlineItem` tree. -/
def get_pdf_outline_info (outline : List OutlineItem) (level max_level : Int) :
    List Anchor :=
  outlineGo outline level max_level

/-! ### Helper segments for stating gap lemmas -/

/-- The gap segment emitted before a covered range starting at `s` when the
cursor stands at `current_page` (lines 168-176). -/
def midGapSeg (current_page s : Int) : Segment :=
  { name := "Unidentified Pages " ++ toString (current_page + 1) ++ "-"
      ++ toString ((s - 1) + 1)
    start_page := current_page + 1
    end_page := (s - 1) + 1
    total_pages := (s - 1) - current_page + 1 }

/-- The trailing gap segment emitted when the cursor ends before
`total_pages` (lines 180-187). -/
def endGapSeg (current_page total_pages : Int) : Segment :=
  { name := "Unidentified Pages " ++ toString (current_page + 1) ++ "-"
      ++ toString total_pages
    start_page := current_page + 1
    end_page := total_pages
    total_pages := total_pages - current_page }

/-- Boolean test for "this anchor's title extracts dedup key `k`". -/
def hasKeyB (k : String) (a : Anchor) : Bool := chapterKey a.title == some k

/-- Page `p` (0-based) lies inside one of the emitted chapter segments. -/
def coveredByChapter (outline_info : List Anchor) (total_pages p : Int) : Prop :=
  ∃ seg ∈ (calculate_page_ranges outline_info total_pages).1,
    seg.start_page ≤ p + 1 ∧ p + 1 ≤ seg.end_page

/-- Page `p` is a document page (0-based, in `[0, total_pages)`) covered by
no emitted chapter segment. -/
def uncoveredPage (outline_info : List Anchor) (total_pages p : Int) : Prop :=
  0 ≤ p ∧ p < total_pages ∧ ¬ coveredByChapter outline_info total_pages p

/-- `[s, e]` is a maximal run of uncovered document pages: nonempty, all
uncovered, and not extensible in either direction. -/
def maximalGapRun (outline_info : List Anchor) (total_pages s e : Int) : Prop :=
  s ≤ e ∧ (∀ p, s ≤ p → p ≤ e → uncoveredPage outline_info total_pages p) ∧
    ¬ uncoveredPage outline_info total_pages (s - 1) ∧
    ¬ uncoveredPage outline_info total_pages (e + 1)

/-! ### Concrete evaluations of the embedded functions -/

example :
    calculate_page_ranges [⟨"A", 0, 0⟩, ⟨"B", 5, 0⟩] 10 =
      ([⟨"A", 1, 5, 5⟩, ⟨"B", 6, 10, 5⟩], []) := by decide

example :
    calculate_page_ranges [⟨"Ch1", 2, 0⟩] 10 =
      ([⟨"Ch1", 3, 10, 8⟩], [⟨"Unidentified Pages 1-2", 1, 2, 2⟩]) := by decide

example :
    tilesB (mergedSortedSegments [⟨"Ch1", 2, 0⟩] 10) 1 10 = true := by decide

example : chapterKey "Chapter 3" = some "Chapter 3" := by decide

example : chapterKey "See Chapter 3" = some "Chapter 3" := by decide

example : chapterKey "Appendix B2" = some "Appendix B2" := by decide

example : chapterKey "Intro" = none := by decide

example : isExcluded "1.2 Subsection" = true := by decide

example : isExcluded "glossary of terms" = true := by decide

example : isChapterTitle "Chapter 12" = true := by decide

example : isChapterTitle "chapter 12" = false := by decide

example :
    filter_top_level_chapters
      [⟨"Chapter 3", 0, 0⟩, ⟨"Chapter 3 again", 4, 0⟩, ⟨"Intro", 9, 0⟩] =
      [⟨"Chapter 3", 0, 0⟩, ⟨"Intro", 9, 0⟩] := by decide

example :
    get_pdf_outline_info
      [.dest "A" (some 0), .sub [.dest "A.1" (some 1)], .dest "B" (some 2)] 0 0 =
      [⟨"A", 0, 0⟩, ⟨"B", 2, 0⟩] := by
  simp [get_pdf_outline_info, outlineGo]

theorem gapWalk_nil (current_page total_pages : Int) :
    gapWalk [] current_page total_pages =
      if current_page < total_pages then [endGapSeg current_page total_pages]
      else [] := rfl

theorem gapWalk_cons (s e current_page total_pages : Int) (rest : List (Int × Int)) :
    gapWalk ((s, e) :: rest) current_page total_pages =
      (if current_page < s then [midGapSeg current_page s] else [])
        ++ gapWalk rest (e + 1) total_pages := rfl

/-! ### Basic facts about `buildRanges` -/

/-- Every kept range satisfies the validity check `start_index ≤ end_index`
(line 141 drops the others). -/
theorem buildRanges_le (l : List Anchor) (total : Int) :
    ∀ t s e, (t, s, e) ∈ buildRanges l total → s ≤ e := by
  induction l, total using buildRanges.induct with
  | case1 => simp [buildRanges]
  | case2 a total h =>
      intro t s e hm
      simp only [buildRanges, if_pos h] at hm
      simp at hm
  | case3 a total h =>
      intro t s e hm
      simp only [buildRanges, if_neg h] at hm
      simp at hm
      omega
  | case4 a b rest total h ih =>
      intro t s e hm
      simp only [buildRanges, if_pos h] at hm
      exact ih t s e hm
  | case5 a b rest total h ih =>
      intro t s e hm
      simp only [buildRanges, if_neg h] at hm
      rcases List.mem_cons.1 hm with h1 | h2
      · injection h1 with h1a h1b
        injection h1b with h1b h1c
        omega
      · exact ih t s e h2

/-- Every kept range's start index and title come from an anchor of the
input list. -/
theorem buildRanges_start_mem (l : List Anchor) (total : Int) :
    ∀ t s e, (t, s, e) ∈ buildRanges l total →
      ∃ a ∈ l, a.title = t ∧ a.page_index = s := by
  induction l, total using buildRanges.induct with
  | case1 => simp [buildRanges]
  | case2 a total h =>
      intro t s e hm
      simp only [buildRanges, if_pos h] at hm
      simp at hm
  | case3 a total h =>
      intro t s e hm
      simp only [buildRanges, if_neg h] at hm
      simp at hm
      obtain ⟨ht, hs, he⟩ := hm
      exact ⟨a, by simp, by simp [ht, hs]⟩
  | case4 a b rest total h ih =>
      intro t s e hm
      simp only [buildRanges, if_pos h] at hm
      obtain ⟨x, hx, hxt⟩ := ih t s e hm
      exact ⟨x, List.mem_cons_of_mem _ hx, hxt⟩
  | case5 a b rest total h ih =>
      intro t s e hm
      simp only [buildRanges, if_neg h] at hm
      rcases List.mem_cons.1 hm with h1 | h2
      · injection h1 with h1a h1b
        injection h1b with h1b h1c
        exact ⟨a, by simp, by simp [h1a, h1b]⟩
      · obtain ⟨x, hx, hxt⟩ := ih t s e h2
        exact ⟨x, List.mem_cons_of_mem _ hx, hxt⟩

/-- On a page-sorted anchor list the kept ranges are emitted with
non-decreasing start indices. -/
theorem buildRanges_pairwise (l : List Anchor) (total : Int)
    (hs : List.Sorted anchorLE l) :
    List.Pairwise (fun x y : String × Int × Int => x.2.1 ≤ y.2.1)
      (buildRanges l total) := by
  induction l, total using buildRanges.induct with
  | case1 => simp [buildRanges]
  | case2 a total h => simp [buildRanges, if_pos h]
  | case3 a total h => simp [buildRanges, if_neg h]
  | case4 a b rest total h ih =>
      simp only [buildRanges, if_pos h]
      exact ih (List.Sorted.of_cons hs)
  | case5 a b rest total h ih =>
      simp only [buildRanges, if_neg h]
      refine List.Pairwise.cons ?_ (ih (List.Sorted.of_cons hs))
      intro y hy
      obtain ⟨x, hx, -, hxs⟩ := buildRanges_start_mem (b :: rest) total y.1 y.2.1 y.2.2 (by simpa using hy)
      have := List.rel_of_sorted_cons hs x hx
      simp only [anchorLE] at this
      simp only [← hxs]
      exact this

/-- On a page-sorted anchor list whose pages all pass the end-of-document
bound, the kept ranges are nonempty (the final anchor is always kept). -/
theorem buildRanges_ne_nil (l : List Anchor) (total : Int)
    (hv : ∀ a ∈ l, a.page_index ≤ total - 1) (hne : l ≠ []) :
    buildRanges l total ≠ [] := by
  induction l, total using buildRanges.induct with
  | case1 => simp at hne
  | case2 a total h =>
      exfalso
      have := hv a (by simp)
      omega
  | case3 a total h => simp [buildRanges, if_neg h]
  | case4 a b rest total h ih =>
      simp only [buildRanges, if_pos h]
      exact ih (fun x hx => hv x (List.mem_cons_of_mem _ hx)) (by simp)
  | case5 a b rest total h ih =>
      simp [buildRanges, if_neg h]

/-- The chain lemma: on a sorted, in-bounds, nonempty anchor list the kept
ranges form a contiguous chain from the first anchor's page index to
`total - 1`. -/
theorem buildRanges_chain (l : List Anchor) (total : Int)
    (hs : List.Sorted anchorLE l) (hv : ∀ a ∈ l, a.page_index ≤ total - 1) :
    ∀ a rest, l = a :: rest →
      rangeChainB ((buildRanges l total).map (fun r => (r.2.1, r.2.2)))
        a.page_index (total - 1) = true := by
  induction l, total using buildRanges.induct with
  | case1 =>
      intro a rest h
      simp at h
  | case2 a total h =>
      intro x rest hx
      exfalso
      have := hv a (by simp)
      omega
  | case3 a total h =>
      intro x rest hx
      cases hx
      simp [buildRanges, if_neg h, rangeChainB]
      omega
  | case4 a b rest total h ih =>
      intro x rest2 hx
      cases hx
      simp only [buildRanges, if_pos h]
      have hba : a.page_index = b.page_index := by
        have := List.rel_of_sorted_cons hs b (by simp)
        simp only [anchorLE] at this
        omega
      rw [hba]
      exact ih (List.Sorted.of_cons hs)
        (fun y hy => hv y (List.mem_cons_of_mem _ hy)) b rest rfl
  | case5 a b rest total h ih =>
      intro x rest2 hx
      cases hx
      simp only [buildRanges, if_neg h]
      have hchain := ih (List.Sorted.of_cons hs)
        (fun y hy => hv y (List.mem_cons_of_mem _ hy)) b rest rfl
      rw [List.map_cons]
      rw [rangeChainB]
      simp only [Bool.and_eq_true, decide_eq_true_eq]
      have heq : b.page_index - 1 + 1 = b.page_index := by omega
      refine ⟨⟨trivial, by omega⟩, ?_⟩
      show rangeChainB _ (b.page_index - 1 + 1) (total - 1) = true
      rw [heq]
      exact hchain

/-! ### Consequences of the chain property -/

theorem rangeChain_le (rs : List (Int × Int)) :
    ∀ lo hi, rangeChainB rs lo hi = true → lo ≤ hi + 1 := by
  induction rs with
  | nil =>
      intro lo hi hc
      simp only [rangeChainB, decide_eq_true_eq] at hc
      omega
  | cons head tail ih =>
      intro lo hi hc
      obtain ⟨s, e⟩ := head
      simp only [rangeChainB, Bool.and_eq_true, decide_eq_true_eq] at hc
      obtain ⟨⟨hs, hse⟩, hrest⟩ := hc
      have := ih (e + 1) hi hrest
      omega

theorem rangeChain_mem_bounds (rs : List (Int × Int)) :
    ∀ lo hi, rangeChainB rs lo hi = true →
      ∀ pr ∈ rs, lo ≤ pr.1 ∧ pr.1 ≤ pr.2 ∧ pr.2 ≤ hi := by
  induction rs with
  | nil => simp
  | cons head tail ih =>
      intro lo hi hc pr hpr
      obtain ⟨s, e⟩ := head
      simp only [rangeChainB, Bool.and_eq_true, decide_eq_true_eq] at hc
      obtain ⟨⟨hs, hse⟩, hrest⟩ := hc
      have hle := rangeChain_le tail (e + 1) hi hrest
      rcases List.mem_cons.1 hpr with h1 | h2
      · subst h1
        refine ⟨by omega, by simpa using hse, by simp; omega⟩
      · have := ih (e + 1) hi hrest pr h2
        refine ⟨by omega, this.2.1, this.2.2⟩

theorem rangeChain_pairwise (rs : List (Int × Int)) :
    ∀ lo hi, rangeChainB rs lo hi = true → List.Pairwise rangeLE rs := by
  induction rs with
  | nil => simp
  | cons head tail ih =>
      intro lo hi hc
      obtain ⟨s, e⟩ := head
      simp only [rangeChainB, Bool.and_eq_true, decide_eq_true_eq] at hc
      obtain ⟨⟨hs, hse⟩, hrest⟩ := hc
      refine List.Pairwise.cons ?_ (ih (e + 1) hi hrest)
      intro y hy
      have := rangeChain_mem_bounds tail (e + 1) hi hrest y hy
      simp only [rangeLE]
      omega

/-- A chain exactly covers its interval: a page lies in some range of the
chain exactly when it lies in `[lo, hi]`. -/
theorem rangeChain_cover (rs : List (Int × Int)) :
    ∀ lo hi, rangeChainB rs lo hi = true →
      ∀ p, (∃ pr ∈ rs, pr.1 ≤ p ∧ p ≤ pr.2) ↔ (lo ≤ p ∧ p ≤ hi) := by
  induction rs with
  | nil =>
      intro lo hi hc p
      simp only [rangeChainB, decide_eq_true_eq] at hc
      simp
      omega
  | cons head tail ih =>
      intro lo hi hc p
      obtain ⟨s, e⟩ := head
      simp only [rangeChainB, Bool.and_eq_true, decide_eq_true_eq] at hc
      obtain ⟨⟨hs, hse⟩, hrest⟩ := hc
      have hcov := ih (e + 1) hi hrest p
      have hle := rangeChain_le tail (e + 1) hi hrest
      constructor
      · rintro ⟨pr, hpr, hp1, hp2⟩
        rcases List.mem_cons.1 hpr with h1 | h2
        · subst h1
          simp at hp1 hp2
          omega
        · have := hcov.1 ⟨pr, h2, hp1, hp2⟩
          omega
      · rintro ⟨hp1, hp2⟩
        by_cases hpe : p ≤ e
        · exact ⟨(s, e), by simp, by simp; omega, by simpa⟩
        · obtain ⟨pr, hpr, hq⟩ := hcov.2 ⟨by omega, hp2⟩
          exact ⟨pr, List.mem_cons_of_mem _ hpr, hq⟩

/-- Converting a chain of kept ranges to 1-based segments yields an exact
tiling of the shifted interval. -/
theorem rangeChain_tiles (rs : List (String × Int × Int)) :
    ∀ lo hi, rangeChainB (rs.map (fun r => (r.2.1, r.2.2))) lo hi = true →
      tilesB (rs.map segOfRange) (lo + 1) (hi + 1) = true := by
  induction rs with
  | nil =>
      intro lo hi hc
      simp only [List.map_nil, rangeChainB, decide_eq_true_eq] at hc
      simp only [List.map_nil, tilesB, decide_eq_true_eq]
      omega
  | cons head tail ih =>
      intro lo hi hc
      obtain ⟨t, s, e⟩ := head
      simp only [List.map_cons, rangeChainB, Bool.and_eq_true, decide_eq_true_eq] at hc
      obtain ⟨⟨hs, hse⟩, hrest⟩ := hc
      simp only [List.map_cons, tilesB, Bool.and_eq_true, decide_eq_true_eq]
      refine ⟨⟨by simp [segOfRange]; omega, by simp [segOfRange]; omega⟩, ?_⟩
      have := ih (e + 1) hi hrest
      simpa [segOfRange] using this

/-- Walking a chain of ranges for gaps produces exactly the front gap
before `lo` (when the cursor starts strictly below `lo`) and nothing else. -/
theorem gapWalk_chain (rs : List (Int × Int)) :
    ∀ lo c total, rangeChainB rs lo (total - 1) = true →
      gapWalk rs c total =
        if c < lo then [midGapSeg c lo] else [] := by
  induction rs with
  | nil =>
      intro lo c total hc
      simp only [rangeChainB, decide_eq_true_eq] at hc
      rw [gapWalk_nil]
      by_cases hlt : c < lo
      · rw [if_pos (by omega : c < total), if_pos hlt]
        have h1 : lo = total := by omega
        subst h1
        have h2 : lo - 1 + 1 = lo := by omega
        simp only [midGapSeg, endGapSeg, h2, List.cons.injEq, Segment.mk.injEq, and_true]
        exact ⟨trivial, trivial, trivial, by omega⟩
      · rw [if_neg (by omega : ¬c < total), if_neg hlt]
  | cons head tail ih =>
      intro lo c total hc
      obtain ⟨s, e⟩ := head
      simp only [rangeChainB, Bool.and_eq_true, decide_eq_true_eq] at hc
      obtain ⟨⟨hs, hse⟩, hrest⟩ := hc
      rw [gapWalk_cons]
      rw [ih (e + 1) (e + 1) total hrest]
      rw [if_neg (by omega : ¬e + 1 < e + 1)]
      subst hs
      simp

/-! ### Ordering facts -/

theorem pairwiseAnd {α : Type} {R S : α → α → Prop} :
    ∀ {l : List α}, l.Pairwise R → l.Pairwise S →
      l.Pairwise (fun a b => R a b ∧ S a b) := by
  intro l
  induction l with
  | nil => intro _ _; exact List.Pairwise.nil
  | cons a t ih =>
      intro hr hs
      rcases List.pairwise_cons.1 hr with ⟨hr1, hr2⟩
      rcases List.pairwise_cons.1 hs with ⟨hs1, hs2⟩
      exact List.Pairwise.cons (fun b hb => ⟨hr1 b hb, hs1 b hb⟩) (ih hr2 hs2)

theorem tiles_bounds (l : List Segment) :
    ∀ lo hi, tilesB l lo hi = true →
      ∀ x ∈ l, lo ≤ x.start_page ∧ x.start_page ≤ x.end_page := by
  induction l with
  | nil => simp
  | cons a t ih =>
      intro lo hi hc x hx
      simp only [tilesB, Bool.and_eq_true, decide_eq_true_eq] at hc
      obtain ⟨⟨h1, h2⟩, h3⟩ := hc
      rcases List.mem_cons.1 hx with hx1 | hx2
      · subst hx1; exact ⟨by omega, h2⟩
      · have := ih (a.end_page + 1) hi h3 x hx2
        exact ⟨by omega, this.2⟩

theorem tiles_pairwise_lt (l : List Segment) :
    ∀ lo hi, tilesB l lo hi = true → l.Pairwise segLT := by
  induction l with
  | nil => simp
  | cons a t ih =>
      intro lo hi hc
      simp only [tilesB, Bool.and_eq_true, decide_eq_true_eq] at hc
      obtain ⟨⟨h1, h2⟩, h3⟩ := hc
      refine List.Pairwise.cons ?_ (ih (a.end_page + 1) hi h3)
      intro y hy
      have := tiles_bounds t (a.end_page + 1) hi h3 y hy
      simp only [segLT]
      omega

theorem sortAnchors_perm (l : List Anchor) : List.Perm (sortAnchors l) l :=
  List.perm_insertionSort anchorLE l

theorem sortAnchors_sorted (l : List Anchor) : List.Sorted anchorLE (sortAnchors l) :=
  List.sorted_insertionSort anchorLE l

theorem sortAnchors_mem (l : List Anchor) (a : Anchor) :
    a ∈ sortAnchors l ↔ a ∈ l :=
  (sortAnchors_perm l).mem_iff

/-- Uniqueness of the sorted order on segments with pairwise strictly
increasing start pages: sorting any permutation of `target` by
`start_page` returns `target` itself. -/
theorem insertionSort_eq_of_pairwise_lt (l target : List Segment)
    (hp : List.Perm l target) (ht : target.Pairwise segLT) :
    List.insertionSort segLE l = target := by
  have hperm : List.Perm (List.insertionSort segLE l) target :=
    (List.perm_insertionSort segLE l).trans hp
  have hsorted : List.Sorted segLE (List.insertionSort segLE l) :=
    List.sorted_insertionSort segLE l
  have hne_t : target.Pairwise (fun a b => a.start_page ≠ b.start_page) :=
    ht.imp (fun h => by simp only [segLT] at h; omega)
  have hne : (List.insertionSort segLE l).Pairwise
      (fun a b => a.start_page ≠ b.start_page) := by
    refine (List.Perm.pairwise_iff ?_ hperm).2 hne_t
    intro a b h
    omega
  have hlt : (List.insertionSort segLE l).Pairwise segLT := by
    have := pairwiseAnd hsorted hne
    refine this.imp ?_
    intro a b h
    simp only [segLE] at h
    simp only [segLT]
    omega
  exact List.eq_of_perm_of_sorted hperm hlt ht

/-- The gap walk over start-sorted, valid ranges emits gap segments in
ascending `start_page` order; moreover every emitted gap starts either just
past the cursor or just past the end of one of the ranges. -/
theorem gapWalk_sorted (rs : List (Int × Int)) :
    ∀ current total, (∀ pr ∈ rs, pr.1 ≤ pr.2) → rs.Pairwise rangeLE →
      List.Sorted segLE (gapWalk rs current total) ∧
      ∀ g ∈ gapWalk rs current total,
        current + 1 ≤ g.start_page ∨ ∃ pr ∈ rs, pr.2 + 2 ≤ g.start_page := by
  induction rs with
  | nil =>
      intro current total hv hp
      rw [gapWalk_nil]
      by_cases hlt : current < total
      · rw [if_pos hlt]
        refine ⟨List.sorted_singleton _, ?_⟩
        intro g hg
        simp only [List.mem_singleton] at hg
        subst hg
        left
        simp [endGapSeg]
      · rw [if_neg hlt]
        simp
  | cons head tail ih =>
      intro current total hv hp
      obtain ⟨s, e⟩ := head
      have hse : s ≤ e := by simpa using hv (s, e) (by simp)
      have hvt : ∀ pr ∈ tail, pr.1 ≤ pr.2 :=
        fun pr hpr => hv pr (List.mem_cons_of_mem _ hpr)
      have hpt : tail.Pairwise rangeLE := (List.pairwise_cons.1 hp).2
      have hst : ∀ pr ∈ tail, s ≤ pr.1 := by
        intro pr hpr
        have := (List.pairwise_cons.1 hp).1 pr hpr
        simpa [rangeLE] using this
      obtain ⟨ihs, ihb⟩ := ih (e + 1) total hvt hpt
      rw [gapWalk_cons]
      have hbound : ∀ g ∈ gapWalk tail (e + 1) total, s + 2 ≤ g.start_page := by
        intro g hg
        rcases ihb g hg with h1 | ⟨pr, hpr, h2⟩
        · omega
        · have := hvt pr hpr
          have := hst pr hpr
          omega
      by_cases hlt : current < s
      · rw [if_pos hlt]
        constructor
        · rw [List.singleton_append]
          refine List.Pairwise.cons ?_ ihs
          intro g hg
          have := hbound g hg
          simp only [segLE, midGapSeg]
          omega
        · intro g hg
          rcases List.mem_cons.1 (by simpa using hg) with h1 | h2
          · subst h1
            left
            simp [midGapSeg]
          · rcases ihb g h2 with h1 | ⟨pr, hpr, h3⟩
            · right
              exact ⟨(s, e), by simp, by simp; omega⟩
            · right
              exact ⟨pr, List.mem_cons_of_mem _ hpr, h3⟩
      · rw [if_neg hlt]
        rw [List.nil_append]
        refine ⟨ihs, ?_⟩
        intro g hg
        rcases ihb g hg with h1 | ⟨pr, hpr, h3⟩
        · right
          exact ⟨(s, e), by simp, by simp; omega⟩
        · right
          exact ⟨pr, List.mem_cons_of_mem _ hpr, h3⟩

/-- On a page-sorted anchor list the emitted chapter segments are in
ascending `start_page` order. -/
theorem sections_sorted (l : List Anchor) (total : Int)
    (hs : List.Sorted anchorLE l) :
    List.Sorted segLE ((buildRanges l total).map segOfRange) := by
  have hpw := buildRanges_pairwise l total hs
  rw [List.Sorted, List.pairwise_map]
  refine hpw.imp ?_
  intro x y h
  simp only [segLE, segOfRange]
  obtain ⟨tx, sx, ex⟩ := x
  obtain ⟨ty, sy, ey⟩ := y
  simp only []
  simp at h
  omega

/-! ### Facts about the Normalizer filter -/

/-- `ftlGo` distributes over append, with the seen-set threaded through. -/
theorem ftlGo_append (l1 : List Anchor) :
    ∀ l2 seen, ftlGo (l1 ++ l2) seen =
      ftlGo l1 seen ++ ftlGo l2 (seenAfter l1 seen) := by
  induction l1 with
  | nil => intro l2 seen; simp [ftlGo, seenAfter]
  | cons item rest ih =>
      intro l2 seen
      by_cases hex : isExcluded item.title
      · simp only [List.cons_append, ftlGo, seenAfter, if_pos hex]
        exact ih l2 seen
      · cases hk : chapterKey item.title with
        | none =>
            simp only [List.cons_append, ftlGo, seenAfter, if_neg hex, hk]
            by_cases hc : isChapterTitle item.title || item.level = 0
            · simp only [if_pos hc, List.cons_append]
              rw [show rest.append l2 = rest ++ l2 from rfl, ih l2 seen]
            · simp only [if_neg hc]
              exact ih l2 seen
        | some k =>
            simp only [List.cons_append, ftlGo, seenAfter, if_neg hex, hk]
            by_cases hc : (isChapterTitle item.title || item.level = 0) && !(seen.contains k)
            · simp only [if_pos hc, List.cons_append]
              rw [show rest.append l2 = rest ++ l2 from rfl, ih l2 (k :: seen)]
            · simp only [if_neg hc]
              exact ih l2 seen

/-- Appending one keyless anchor: whether it survives the filter depends
only on its own title and level, never on the anchors before it. -/
theorem ftlGo_keyless_append (l : List Anchor) (a : Anchor)
    (hk : chapterKey a.title = none) (seen : List String) :
    ftlGo (l ++ [a]) seen =
      ftlGo l seen ++ (if keepAnchor a then [a] else []) := by
  rw [ftlGo_append]
  congr 1
  by_cases hex : isExcluded a.title
  · simp [ftlGo, if_pos hex, keepAnchor, hex]
  · simp only [ftlGo, if_neg hex, hk, keepAnchor]
    by_cases hc : isChapterTitle a.title || a.level = 0
    · simp [if_pos hc, hex, hc]
    · simp [if_neg hc, hex]

/-- The key lemma for deduplication: among the anchors that extract a given
key `k` and pass their own keep test, exactly the first one (in input
order) survives — none at all if `k` was already seen. -/
theorem ftlGo_filter_key (l : List Anchor) :
    ∀ seen k, (ftlGo l seen).filter (hasKeyB k) =
      if seen.contains k then []
      else (l.filter (fun a => hasKeyB k a && keepAnchor a)).take 1 := by
  induction l with
  | nil => intro seen k; simp [ftlGo]
  | cons item rest ih =>
      intro seen k
      by_cases hex : isExcluded item.title
      · have hkeep : keepAnchor item = false := by simp [keepAnchor, hex]
        have hfc : List.filter (fun a => hasKeyB k a && keepAnchor a) (item :: rest)
            = List.filter (fun a => hasKeyB k a && keepAnchor a) rest := by
          simp [List.filter_cons, hkeep]
        rw [show ftlGo (item :: rest) seen = ftlGo rest seen from by
            simp [ftlGo, if_pos hex]]
        rw [ih seen k, hfc]
      · cases hk : chapterKey item.title with
        | none =>
            have hnotk : hasKeyB k item = false := by simp [hasKeyB, hk]
            have hfc : List.filter (fun a => hasKeyB k a && keepAnchor a) (item :: rest)
                = List.filter (fun a => hasKeyB k a && keepAnchor a) rest := by
              simp [List.filter_cons, hnotk]
            by_cases hc : isChapterTitle item.title || item.level = 0
            · rw [show ftlGo (item :: rest) seen = item :: ftlGo rest seen from by
                  simp [ftlGo, hex, hk, hc]]
              rw [show List.filter (hasKeyB k) (item :: ftlGo rest seen)
                  = List.filter (hasKeyB k) (ftlGo rest seen) from by
                  simp [List.filter_cons, hnotk]]
              rw [ih seen k, hfc]
            · have hcf : (isChapterTitle item.title || decide (item.level = 0))
                  = false := Bool.eq_false_iff.2 hc
              rw [show ftlGo (item :: rest) seen = ftlGo rest seen from by
                  simp [ftlGo, hex, hk, hcf]]
              rw [ih seen k, hfc]
        | some k2 =>
            by_cases hc : (isChapterTitle item.title || item.level = 0)
              && !(seen.contains k2)
            · rw [show ftlGo (item :: rest) seen = item :: ftlGo rest (k2 :: seen) from by
                  simp only [ftlGo, if_neg hex, hk]
                  rw [if_pos hc]]
              by_cases hkk : k2 = k
              · subst hkk
                have hitem : hasKeyB k2 item = true := by simp [hasKeyB, hk]
                have hcond : (isChapterTitle item.title || item.level = 0) = true ∧
                    seen.contains k2 = false := by
                  rcases Bool.and_eq_true_iff.1 hc with ⟨h1, h2⟩
                  exact ⟨h1, by simpa using h2⟩
                have hkeepitem : keepAnchor item = true := by
                  simp [keepAnchor, hex, hcond.1]
                rw [show List.filter (hasKeyB k2) (item :: ftlGo rest (k2 :: seen))
                    = item :: List.filter (hasKeyB k2) (ftlGo rest (k2 :: seen)) from by
                    simp [List.filter_cons, hitem]]
                rw [ih (k2 :: seen) k2]
                rw [if_pos (show (k2 :: seen).contains k2 = true by
                      simp [List.contains_cons])]
                rw [if_neg (show ¬seen.contains k2 = true by
                      rw [hcond.2]; simp)]
                rw [show List.filter (fun a => hasKeyB k2 a && keepAnchor a) (item :: rest)
                    = item :: List.filter (fun a => hasKeyB k2 a && keepAnchor a) rest from by
                    simp [List.filter_cons, hitem, hkeepitem]]
                simp
              · have hnotk : hasKeyB k item = false := by
                  simp only [hasKeyB, hk, beq_eq_false_iff_ne, Ne, Option.some.injEq]
                  exact hkk
                have hfc : List.filter (fun a => hasKeyB k a && keepAnchor a) (item :: rest)
                    = List.filter (fun a => hasKeyB k a && keepAnchor a) rest := by
                  simp [List.filter_cons, hnotk]
                rw [show List.filter (hasKeyB k) (item :: ftlGo rest (k2 :: seen))
                    = List.filter (hasKeyB k) (ftlGo rest (k2 :: seen)) from by
                    simp [List.filter_cons, hnotk]]
                rw [ih (k2 :: seen) k, hfc]
                have hkne : (k == k2) = false := by
                  simp only [beq_eq_false_iff_ne, Ne]
                  exact fun h => hkk h.symm
                rw [show (k2 :: seen).contains k = seen.contains k from by
                    simp [List.contains_cons, hkne]
                    intro h
                    exact absurd h.symm hkk]
            · rw [show ftlGo (item :: rest) seen = ftlGo rest seen from by
                  simp only [ftlGo, if_neg hex, hk]
                  rw [if_neg hc]]
              rw [ih seen k]
              by_cases hcond : (isChapterTitle item.title || item.level = 0) = true
              · -- rejected because the key was already seen
                have hseen2 : seen.contains k2 = true := by
                  by_contra hno
                  refine hc ?_
                  simp [hcond]
                  intro hmem
                  exact hno (by simp [hmem])
                by_cases hkk : k2 = k
                · subst hkk
                  rw [if_pos hseen2, if_pos hseen2]
                · have hnotk : hasKeyB k item = false := by
                    simp only [hasKeyB, hk, beq_eq_false_iff_ne, Ne, Option.some.injEq]
                    exact hkk
                  have hfc : List.filter (fun a => hasKeyB k a && keepAnchor a) (item :: rest)
                      = List.filter (fun a => hasKeyB k a && keepAnchor a) rest := by
                    simp [List.filter_cons, hnotk]
                  rw [hfc]
              · have hcf : (isChapterTitle item.title || decide (item.level = 0))
                    = false := Bool.eq_false_iff.2 hcond
                have hkeep : keepAnchor item = false := by
                  simp [keepAnchor, hcf]
                have hfc : List.filter (fun a => hasKeyB k a && keepAnchor a) (item :: rest)
                    = List.filter (fun a => hasKeyB k a && keepAnchor a) rest := by
                  simp [List.filter_cons, hkeep]
                rw [hfc]

/-! ### Structure of `calculate_page_ranges` on valid anchors -/

theorem calc_sections_eq (anchors : List Anchor) (total : Int) :
    (calculate_page_ranges anchors total).1 =
      (buildRanges (sortAnchors anchors) total).map segOfRange := rfl

theorem calc_gaps_eq (anchors : List Anchor) (total : Int) :
    (calculate_page_ranges anchors total).2 =
      gapWalk
        (List.insertionSort rangeLE
          ((buildRanges (sortAnchors anchors) total).map (fun r => (r.2.1, r.2.2))))
        0 total := rfl

theorem calc_empty (anchors : List Anchor) (total : Int)
    (hsl : sortAnchors anchors = []) :
    calculate_page_ranges anchors total =
      ([], if 0 < total then [endGapSeg 0 total] else []) := by
  have h1 : (calculate_page_ranges anchors total).1 = [] := by
    rw [calc_sections_eq, hsl]
    rfl
  have h2 : (calculate_page_ranges anchors total).2 =
      if 0 < total then [endGapSeg 0 total] else [] := by
    rw [calc_gaps_eq, hsl]
    rw [show buildRanges [] total = [] from rfl]
    rw [show List.insertionSort rangeLE (List.map (fun r => (r.2.1, r.2.2))
      ([] : List (String × Int × Int))) = [] from rfl]
    rw [gapWalk_nil]
  have hsplit : calculate_page_ranges anchors total =
      ((calculate_page_ranges anchors total).1,
        (calculate_page_ranges anchors total).2) := rfl
  rw [hsplit, h1, h2]

/-- On valid anchors whose sorted order starts with `a`, the gap list is
the single front gap below `a.page_index` (or nothing when `a` starts at
page 0). -/
theorem calc_gaps_of_chain (anchors : List Anchor) (total : Int) (a : Anchor)
    (rest : List Anchor) (hsl : sortAnchors anchors = a :: rest)
    (hv : ∀ x ∈ anchors, x.page_index ≤ total - 1) :
    (calculate_page_ranges anchors total).2 =
      if 0 < a.page_index then [midGapSeg 0 a.page_index] else [] := by
  have hv2 : ∀ x ∈ sortAnchors anchors, x.page_index ≤ total - 1 :=
    fun x hx => hv x ((sortAnchors_mem anchors x).1 hx)
  have hchain := buildRanges_chain (sortAnchors anchors) total
    (sortAnchors_sorted anchors) hv2 a rest hsl
  have hpw := rangeChain_pairwise _ _ _ hchain
  rw [calc_gaps_eq]
  rw [List.Sorted.insertionSort_eq hpw]
  exact gapWalk_chain _ a.page_index 0 total hchain

/-- Claim C1's tiling, established on the sorted-anchor case split. -/
theorem calc_tiles (anchors : List Anchor) (total : Int) (h1 : 1 ≤ total)
    (hpage : ∀ a ∈ anchors, 0 ≤ a.page_index ∧ a.page_index < total) :
    tilesB (mergedSortedSegments anchors total) 1 total = true := by
  have hv : ∀ x ∈ anchors, x.page_index ≤ total - 1 := by
    intro x hx
    have := hpage x hx
    omega
  cases hsl : sortAnchors anchors with
  | nil =>
      have hc := calc_empty anchors total hsl
      rw [mergedSortedSegments, downstreamSegments, hc]
      rw [if_pos (by omega : (0:Int) < total)]
      rw [show ([] : List Segment) ++ [endGapSeg 0 total] = [endGapSeg 0 total] from rfl]
      rw [show List.insertionSort segLE [endGapSeg 0 total] = [endGapSeg 0 total] from rfl]
      simp only [tilesB, endGapSeg, Bool.and_eq_true, decide_eq_true_eq]
      and_intros <;> trivial
  | cons a rest =>
      have hmem : a ∈ anchors := (sortAnchors_mem anchors a).1 (by rw [hsl]; simp)
      have h0 : 0 ≤ a.page_index := (hpage a hmem).1
      have hv2 : ∀ x ∈ sortAnchors anchors, x.page_index ≤ total - 1 :=
        fun x hx => hv x ((sortAnchors_mem anchors x).1 hx)
      have hchain := buildRanges_chain (sortAnchors anchors) total
        (sortAnchors_sorted anchors) hv2 a rest hsl
      have htiles := rangeChain_tiles (buildRanges (sortAnchors anchors) total)
        a.page_index (total - 1) hchain
      rw [show total - 1 + 1 = total from by omega] at htiles
      have hgaps := calc_gaps_of_chain anchors total a rest hsl hv
      have hsec := calc_sections_eq anchors total
      set sections := (buildRanges (sortAnchors anchors) total).map segOfRange with hsecdef
      have htgt : tilesB
          ((if 0 < a.page_index then [midGapSeg 0 a.page_index] else []) ++ sections)
          1 total = true := by
        by_cases hlt : 0 < a.page_index
        · rw [if_pos hlt, List.singleton_append]
          simp only [tilesB, Bool.and_eq_true, decide_eq_true_eq]
          refine ⟨⟨?_, ?_⟩, ?_⟩
          · simp [midGapSeg]
          · simp only [midGapSeg]
            omega
          · rw [show (midGapSeg 0 a.page_index).end_page + 1 = a.page_index + 1 from by
                simp only [midGapSeg]
                omega]
            exact htiles
        · rw [if_neg hlt, List.nil_append]
          rw [show a.page_index + 1 = 1 from by omega] at htiles
          exact htiles
      have hperm : List.Perm (downstreamSegments anchors total)
          ((if 0 < a.page_index then [midGapSeg 0 a.page_index] else []) ++ sections) := by
        rw [downstreamSegments, hsec, hgaps]
        exact List.perm_append_comm
      have heq : mergedSortedSegments anchors total =
          (if 0 < a.page_index then [midGapSeg 0 a.page_index] else []) ++ sections :=
        insertionSort_eq_of_pairwise_lt _ _ hperm (tiles_pairwise_lt _ 1 total htgt)
      rw [heq]
      exact htgt

/-- Every anchor emitted by the traversal carries a level at most
`max_level`, provided the starting level does (the recursion only descends
while `level < max_level`, and emission reuses the current level). -/
theorem outlineGo_level_le (l : List OutlineItem) (level max_level : Int) :
    level ≤ max_level → ∀ a ∈ outlineGo l level max_level, a.level ≤ max_level := by
  induction l, level, max_level using outlineGo.induct with
  | case1 level maxL => simp [outlineGo]
  | case2 title page rest level maxL ih =>
      intro h a ha
      cases page with
      | some p =>
          simp only [outlineGo] at ha
          rcases List.mem_append.1 ha with h1 | h2
          · simp at h1
            simp [h1, h]
          · exact ih h a h2
      | none =>
          simp only [outlineGo] at ha
          rcases List.mem_append.1 ha with h1 | h2
          · simp at h1
          · exact ih h a h2
  | case3 items rest level maxL ih1 ih2 =>
      intro h a ha
      simp only [outlineGo] at ha
      rcases List.mem_append.1 ha with h1 | h2
      · by_cases hlt : level < maxL
        · rw [if_pos hlt] at h1
          exact ih1 (by omega) a h1
        · rw [if_neg hlt] at h1
          simp at h1
      · exact ih2 h a h2

/-! ### Claim theorems -/

/-- Claim C1: for every `total_pages ≥ 1` and every anchor list whose page
indices all lie in `[0, total_pages)`, the chapter segments and gap
segments returned by `calculate_page_ranges`, merged into one sequence and
sorted by `start_page`, exactly tile `[1, total_pages]`: the first
segment's `start_page` is 1, the last segment's `end_page` is
`total_pages`, and each next segment starts one page after the previous
one ends (no gaps, no overlaps). -/
theorem claim_C1_partition_invariant (anchors : List Anchor) (total_pages : Int)
    (h1 : 1 ≤ total_pages)
    (h2 : ∀ a ∈ anchors, 0 ≤ a.page_index ∧ a.page_index < total_pages) :
    tilesB (mergedSortedSegments anchors total_pages) 1 total_pages = true :=
  calc_tiles anchors total_pages h1 h2

theorem claim_C1_witness :
    1 ≤ (10 : Int) ∧
    (∀ a ∈ [Anchor.mk "Ch1" 2 0, Anchor.mk "Ch2" 7 0],
      0 ≤ a.page_index ∧ a.page_index < 10) ∧
    tilesB (mergedSortedSegments [Anchor.mk "Ch1" 2 0, Anchor.mk "Ch2" 7 0] 10)
      1 10 = true :=
  ⟨by decide, by decide,
    claim_C1_partition_invariant [Anchor.mk "Ch1" 2 0, Anchor.mk "Ch2" 7 0] 10
      (by decide) (by decide)⟩

/-- Claim C2 counterexample: with a single anchor at 0-based page 2 in a
10-page document, the caller's merged list (`sections.extend(...)`) is the
chapter segment 3-10 followed by the gap segment 1-2 — the downstream
writers do not receive the segments in ascending `start_page` order, and no
re-sort happens between `calculate_page_ranges` and them. -/
theorem claim_C2_counterexample :
    downstreamSegments [Anchor.mk "Ch1" 2 0] 10 =
      [Segment.mk "Ch1" 3 10 8, Segment.mk "Unidentified Pages 1-2" 1 2 2] ∧
    ¬ List.Pairwise segLE (downstreamSegments [Anchor.mk "Ch1" 2 0] 10) := by
  constructor
  · decide
  · decide

/-- Claim C2 amended: the caller merges by appending the gap segments after
the chapter segments and performs no re-sort, so `perform_pdf_split` and
`generate_chapter_summary` receive the chapter segments in ascending
`start_page` order followed by the gap segments in ascending `start_page`
order — not, in general, one globally ascending sequence. -/
theorem claim_C2_amended (anchors : List Anchor) (total_pages : Int) :
    downstreamSegments anchors total_pages =
      (calculate_page_ranges anchors total_pages).1
        ++ (calculate_page_ranges anchors total_pages).2 ∧
    List.Sorted segLE (calculate_page_ranges anchors total_pages).1 ∧
    List.Sorted segLE (calculate_page_ranges anchors total_pages).2 := by
  refine ⟨rfl, ?_, ?_⟩
  · rw [calc_sections_eq]
    exact sections_sorted (sortAnchors anchors) total_pages
      (sortAnchors_sorted anchors)
  · rw [calc_gaps_eq]
    refine (gapWalk_sorted _ 0 total_pages ?_ ?_).1
    · intro pr hpr
      have hmem := (List.perm_insertionSort rangeLE _).mem_iff.1 hpr
      obtain ⟨r, hr, hrr⟩ := List.mem_map.1 hmem
      obtain ⟨t, s, e⟩ := r
      have := buildRanges_le (sortAnchors anchors) total_pages t s e hr
      simp at hrr
      rw [← hrr]
      exact this
    · exact List.sorted_insertionSort rangeLE _

/-- Claim C3 counterexample: with `total_pages = 10` and anchors at 0-based
pages 12 and 15 (both past the end of the document), the anchor at page 12
still yields a chapter segment (1-based 13-15), contradicting "every anchor
with `page_index ≥ total_pages` yields no chapter segment"; and a lone
anchor at page 15 is dropped by the validity check although
`start_index = 15 ≠ total_pages = 10`. -/
theorem claim_C3_counterexample :
    (calculate_page_ranges [Anchor.mk "A" 12 0, Anchor.mk "B" 15 0] 10).1 =
      [Segment.mk "A" 13 15 3] ∧
    buildRanges [Anchor.mk "B" 15 0] 10 = [] := by
  constructor
  · decide
  · decide

/-- Claim C3 amended: an anchor with `page_index ≥ total_pages` yields a
kept chapter range only when some anchor of the list has a strictly larger
page index (otherwise it is dropped); and for a lone (hence last, after
sorting) anchor the validity check `start_index > end_index` fails exactly
when `start_index ≥ total_pages` — not only when it equals
`total_pages`. -/
theorem claim_C3_amended (l : List Anchor) (a : Anchor) (total_pages : Int) :
    (∀ t s e, (t, s, e) ∈ buildRanges l total_pages → total_pages ≤ s →
      ∃ b ∈ l, s < b.page_index) ∧
    (buildRanges [a] total_pages = [] ↔ total_pages ≤ a.page_index) := by
  constructor
  · induction l, total_pages using buildRanges.induct with
    | case1 => simp [buildRanges]
    | case2 a2 total h =>
        intro t s e hm
        simp [buildRanges, if_pos h] at hm
    | case3 a2 total h =>
        intro t s e hm hout
        simp only [buildRanges, if_neg h] at hm
        simp at hm
        omega
    | case4 a2 b rest total h ih =>
        intro t s e hm hout
        simp only [buildRanges, if_pos h] at hm
        obtain ⟨x, hx, hxlt⟩ := ih t s e hm hout
        exact ⟨x, List.mem_cons_of_mem _ hx, hxlt⟩
    | case5 a2 b rest total h ih =>
        intro t s e hm hout
        simp only [buildRanges, if_neg h] at hm
        rcases List.mem_cons.1 hm with h1 | h2
        · injection h1 with h1a h1b
          injection h1b with h1b h1c
          refine ⟨b, by simp, by omega⟩
        · obtain ⟨x, hx, hxlt⟩ := ih t s e h2 hout
          exact ⟨x, List.mem_cons_of_mem _ hx, hxlt⟩
  · constructor
    · intro hb
      by_contra hlt
      simp only [buildRanges] at hb
      rw [if_neg (by omega : ¬a.page_index > total_pages - 1)] at hb
      exact absurd hb (by simp)
    · intro hge
      simp only [buildRanges]
      rw [if_pos (by omega : a.page_index > total_pages - 1)]

theorem claim_C3_witness :
    (∃ b ∈ [Anchor.mk "A" 12 0, Anchor.mk "B" 15 0], (12 : Int) < b.page_index) ∧
    (buildRanges [Anchor.mk "B" 15 0] 10 = [] ↔ (10 : Int) ≤ (Anchor.mk "B" 15 0).page_index) :=
  ⟨(claim_C3_amended [Anchor.mk "A" 12 0, Anchor.mk "B" 15 0]
      (Anchor.mk "B" 15 0) 10).1 "A" 12 14 (by decide) (by decide),
   (claim_C3_amended [Anchor.mk "A" 12 0, Anchor.mk "B" 15 0]
      (Anchor.mk "B" 15 0) 10).2⟩

/-- Claim C4 counterexample: anchors at 0-based pages 0 and 6 in a 10-page
document produce no gap segment at all (the first chapter runs up to the
page before the second anchor), contradicting "a synthetic gap segment for
page 6 between the two chapter segments". -/
theorem claim_C4_counterexample :
    (calculate_page_ranges [Anchor.mk "A" 0 0, Anchor.mk "B" 6 0] 10).2 = [] := by
  decide

/-- Claim C4 amended: anchors at 0-based pages 0 and 5 in a 10-page
document produce exactly the chapter segments 1-5 and 6-10 with zero gap
segments; anchors at pages 0 and 6 produce the chapter segments 1-6 and
7-10, likewise with zero gap segments (no gap arises, because each chapter
extends to the page before the next anchor). -/
theorem claim_C4_amended :
    calculate_page_ranges [Anchor.mk "A" 0 0, Anchor.mk "B" 5 0] 10 =
      ([Segment.mk "A" 1 5 5, Segment.mk "B" 6 10 5], []) ∧
    calculate_page_ranges [Anchor.mk "A" 0 0, Anchor.mk "B" 6 0] 10 =
      ([Segment.mk "A" 1 6 6, Segment.mk "B" 7 10 4], []) := by
  constructor
  · decide
  · decide

/-- Claim C5 counterexample: two anchors sharing page 5 with different
titles; permuting the input changes which title survives the validity
check, so the outputs differ although the inputs are permutations. -/
theorem claim_C5_counterexample :
    List.Perm [Anchor.mk "A" 5 0, Anchor.mk "B" 5 0]
      [Anchor.mk "B" 5 0, Anchor.mk "A" 5 0] ∧
    calculate_page_ranges [Anchor.mk "A" 5 0, Anchor.mk "B" 5 0] 10 ≠
      calculate_page_ranges [Anchor.mk "B" 5 0, Anchor.mk "A" 5 0] 10 := by
  constructor
  · decide
  · decide

/-- Claim C5 amended: when all anchors carry pairwise distinct page
indices, `calculate_page_ranges` is invariant under permutation of its
input: any two permuted anchor lists yield identical chapter-segment
sequences and identical gap-segment sequences. -/
theorem claim_C5_amended (l1 l2 : List Anchor) (total_pages : Int)
    (hp : List.Perm l1 l2)
    (hd : l1.Pairwise (fun a b => a.page_index ≠ b.page_index)) :
    calculate_page_ranges l1 total_pages = calculate_page_ranges l2 total_pages := by
  have hsort : sortAnchors l1 = sortAnchors l2 := by
    have hperm : List.Perm (sortAnchors l1) (sortAnchors l2) :=
      (sortAnchors_perm l1).trans (hp.trans (sortAnchors_perm l2).symm)
    have hd1 : (sortAnchors l1).Pairwise
        (fun a b => a.page_index ≠ b.page_index) :=
      ((List.Perm.pairwise_iff (fun h hh => h hh.symm)
        (sortAnchors_perm l1)).2 hd)
    have hd2 : (sortAnchors l2).Pairwise
        (fun a b => a.page_index ≠ b.page_index) :=
      ((List.Perm.pairwise_iff (fun h hh => h hh.symm) hperm).1 hd1)
    have hlt1 : (sortAnchors l1).Pairwise anchorLT := by
      refine (pairwiseAnd (sortAnchors_sorted l1) hd1).imp ?_
      intro a b h
      simp only [anchorLE] at h
      simp only [anchorLT]
      omega
    have hlt2 : (sortAnchors l2).Pairwise anchorLT := by
      refine (pairwiseAnd (sortAnchors_sorted l2) hd2).imp ?_
      intro a b h
      simp only [anchorLE] at h
      simp only [anchorLT]
      omega
    exact List.eq_of_perm_of_sorted hperm hlt1 hlt2
  have h1 : (calculate_page_ranges l1 total_pages).1 =
      (calculate_page_ranges l2 total_pages).1 := by
    rw [calc_sections_eq, calc_sections_eq, hsort]
  have h2 : (calculate_page_ranges l1 total_pages).2 =
      (calculate_page_ranges l2 total_pages).2 := by
    rw [calc_gaps_eq, calc_gaps_eq, hsort]
  have hsplit1 : calculate_page_ranges l1 total_pages =
      ((calculate_page_ranges l1 total_pages).1,
        (calculate_page_ranges l1 total_pages).2) := rfl
  have hsplit2 : calculate_page_ranges l2 total_pages =
      ((calculate_page_ranges l2 total_pages).1,
        (calculate_page_ranges l2 total_pages).2) := rfl
  rw [hsplit1, hsplit2, h1, h2]

theorem claim_C5_witness :
    List.Perm [Anchor.mk "B" 5 0, Anchor.mk "A" 0 0]
      [Anchor.mk "A" 0 0, Anchor.mk "B" 5 0] ∧
    ([Anchor.mk "B" 5 0, Anchor.mk "A" 0 0]).Pairwise
      (fun a b => a.page_index ≠ b.page_index) ∧
    calculate_page_ranges [Anchor.mk "B" 5 0, Anchor.mk "A" 0 0] 7 =
      calculate_page_ranges [Anchor.mk "A" 0 0, Anchor.mk "B" 5 0] 7 :=
  ⟨by decide, by decide,
    claim_C5_amended [Anchor.mk "B" 5 0, Anchor.mk "A" 0 0]
      [Anchor.mk "A" 0 0, Anchor.mk "B" 5 0] 7 (by decide) (by decide)⟩

/-- Claim C7 counterexample: the titles "See Chapter 3" (level 1) and
"Chapter 3" (level 0) both extract the key "Chapter 3", yet the output of
`filter_top_level_chapters` contains the later anchor and not the first
one — the first is rejected by the keep test before its key is ever
recorded, so "only the first such anchor appears in the output and every
later one is discarded" fails. -/
theorem claim_C7_counterexample :
    chapterKey "See Chapter 3" = some "Chapter 3" ∧
    chapterKey "Chapter 3" = some "Chapter 3" ∧
    filter_top_level_chapters
      [Anchor.mk "See Chapter 3" 9 1, Anchor.mk "Chapter 3" 0 0] =
      [Anchor.mk "Chapter 3" 0 0] := by
  refine ⟨by decide, by decide, by decide⟩

/-- Claim C7 amended: for every key `k`, the anchors of the output of
`filter_top_level_chapters` whose titles extract `k` are exactly the first
anchor of the input that extracts `k` and passes its own keep test
(exclusion filter plus chapter-or-top-level test) — every later anchor
with the same key is discarded; and an anchor whose title yields no
extractable key is kept or dropped solely by its own keep test,
independent of all anchors before it (keyless anchors are never
deduplicated). -/
theorem claim_C7_amended (l : List Anchor) (k : String) :
    (filter_top_level_chapters l).filter (hasKeyB k) =
      (l.filter (fun a => hasKeyB k a && keepAnchor a)).take 1 ∧
    ∀ a, chapterKey a.title = none →
      filter_top_level_chapters (l ++ [a]) =
        filter_top_level_chapters l ++ (if keepAnchor a then [a] else []) := by
  constructor
  · have h := ftlGo_filter_key l [] k
    rw [filter_top_level_chapters]
    rw [h]
    rw [if_neg (by simp)]
  · intro a hk
    exact ftlGo_keyless_append l a hk []

theorem claim_C7_witness :
    (filter_top_level_chapters
        [Anchor.mk "Chapter 3" 0 0, Anchor.mk "Chapter 3 revisited" 4 0]).filter
        (hasKeyB "Chapter 3") =
      (([Anchor.mk "Chapter 3" 0 0, Anchor.mk "Chapter 3 revisited" 4 0]).filter
        (fun a => hasKeyB "Chapter 3" a && keepAnchor a)).take 1 ∧
    filter_top_level_chapters ([Anchor.mk "Chapter 3" 0 0] ++ [Anchor.mk "Intro" 9 0]) =
      filter_top_level_chapters [Anchor.mk "Chapter 3" 0 0] ++
        (if keepAnchor (Anchor.mk "Intro" 9 0) then [Anchor.mk "Intro" 9 0] else []) :=
  ⟨(claim_C7_amended
      [Anchor.mk "Chapter 3" 0 0, Anchor.mk "Chapter 3 revisited" 4 0] "Chapter 3").1,
   (claim_C7_amended [Anchor.mk "Chapter 3" 0 0] "Chapter 3").2
      (Anchor.mk "Intro" 9 0) (by decide)⟩

/-- Claim C8: every anchor emitted by the outline traversal
`get_pdf_outline_info` (entered at level 0, as the program calls it) has
level at most `max_level`; in particular, with `max_level = 0`, a
depth-0 outline with a nested depth-1 entry yields exactly the depth-0
anchors and never the nested one. -/
theorem claim_C8_depth_restriction :
    (∀ (outline : List OutlineItem) (max_level : Int), 0 ≤ max_level →
      ∀ a ∈ get_pdf_outline_info outline 0 max_level, a.level ≤ max_level) ∧
    get_pdf_outline_info
      [.dest "Chapter 1" (some 0), .sub [.dest "1.1 Sub" (some 1)],
        .dest "Chapter 2" (some 2)] 0 0 =
      [Anchor.mk "Chapter 1" 0 0, Anchor.mk "Chapter 2" 2 0] := by
  constructor
  · intro outline maxL h a ha
    exact outlineGo_level_le outline 0 maxL h a ha
  · simp [get_pdf_outline_info, outlineGo]

theorem claim_C8_witness :
    (Anchor.mk "Chapter 1" 0 0).level ≤ 0 :=
  claim_C8_depth_restriction.1 [.dest "Chapter 1" (some 0)] 0 (by decide)
    (Anchor.mk "Chapter 1" 0 0) (by simp [get_pdf_outline_info, outlineGo])

/-- Claim C9 counterexample: `calculate_page_ranges` sorts its input list
in place (line 123), so after a call with the anchors out of page order the
caller's list is no longer in its original order. -/
theorem claim_C9_counterexample :
    calcInputAfter [Anchor.mk "B" 5 0, Anchor.mk "A" 0 0] ≠
      [Anchor.mk "B" 5 0, Anchor.mk "A" 0 0] := by
  decide

/-- Claim C9 amended: after `calculate_page_ranges` returns, the caller's
anchor list holds the same anchor records (as a multiset) but stably
sorted by ascending `page_index` — the in-place `outline_info.sort(...)`
of line 123 reorders the list instead of leaving it unchanged. -/
theorem claim_C9_amended (outline_info : List Anchor) :
    List.Perm (calcInputAfter outline_info) outline_info ∧
    List.Sorted anchorLE (calcInputAfter outline_info) :=
  ⟨sortAnchors_perm outline_info, sortAnchors_sorted outline_info⟩

/-- Claim C10: whenever the validity check drops every anchor's chapter
segment (the chapter list comes back empty) and the document has at least
one page, `calculate_page_ranges` returns exactly one gap segment
"Unidentified Pages 1-<total_pages>" covering the whole document. -/
theorem claim_C10_all_dropped (anchors : List Anchor) (total_pages : Int)
    (h1 : 1 ≤ total_pages)
    (h2 : (calculate_page_ranges anchors total_pages).1 = []) :
    (calculate_page_ranges anchors total_pages).2 =
      [Segment.mk ("Unidentified Pages 1-" ++ toString total_pages)
        1 total_pages total_pages] := by
  have hkept : buildRanges (sortAnchors anchors) total_pages = [] := by
    have := h2
    rw [calc_sections_eq] at this
    exact List.map_eq_nil_iff.1 this
  rw [calc_gaps_eq, hkept]
  rw [show List.insertionSort rangeLE (List.map (fun r => (r.2.1, r.2.2))
    ([] : List (String × Int × Int))) = [] from rfl]
  rw [gapWalk_nil, if_pos (by omega : (0:Int) < total_pages)]
  rw [endGapSeg]
  rw [show toString ((0:Int) + 1) = "1" from by decide]
  rw [show ("Unidentified Pages " ++ "1" ++ "-") = "Unidentified Pages 1-" from by decide]
  rw [show (0:Int) + 1 = 1 from by decide]
  rw [show total_pages - 0 = total_pages from by omega]

theorem claim_C10_witness :
    1 ≤ (10 : Int) ∧
    (calculate_page_ranges [Anchor.mk "A" 10 0] 10).1 = [] ∧
    (calculate_page_ranges [Anchor.mk "A" 10 0] 10).2 =
      [Segment.mk "Unidentified Pages 1-10" 1 10 10] :=
  ⟨by decide, by decide,
    (claim_C10_all_dropped [Anchor.mk "A" 10 0] 10 (by decide) (by decide)).trans
      (by decide)⟩

/-! ### Claim C6: gap segments are exactly the maximal uncovered runs -/

theorem coveredByChapter_iff_pairs (anchors : List Anchor) (total p : Int) :
    coveredByChapter anchors total p ↔
      ∃ pr ∈ (buildRanges (sortAnchors anchors) total).map
        (fun r => (r.2.1, r.2.2)), pr.1 ≤ p ∧ p ≤ pr.2 := by
  rw [coveredByChapter, calc_sections_eq]
  constructor
  · rintro ⟨seg, hseg, h1, h2⟩
    obtain ⟨r, hr, hrs⟩ := List.mem_map.1 hseg
    obtain ⟨t, s2, e2⟩ := r
    refine ⟨(s2, e2), List.mem_map.2 ⟨(t, s2, e2), hr, rfl⟩, ?_, ?_⟩
    · subst hrs; simp only [segOfRange] at h1; simp; omega
    · subst hrs; simp only [segOfRange] at h2; simp; omega
  · rintro ⟨pr, hpr, h1, h2⟩
    obtain ⟨r, hr, hrs⟩ := List.mem_map.1 hpr
    obtain ⟨t, s2, e2⟩ := r
    refine ⟨segOfRange (t, s2, e2), List.mem_map.2 ⟨(t, s2, e2), hr, rfl⟩, ?_, ?_⟩
    · simp only [segOfRange]
      subst hrs
      simp at h1 h2
      omega
    · simp only [segOfRange]
      subst hrs
      simp at h1 h2
      omega

theorem uncovered_iff_nil (anchors : List Anchor) (total : Int)
    (hsl : sortAnchors anchors = []) :
    ∀ p, uncoveredPage anchors total p ↔ (0 ≤ p ∧ p < total) := by
  intro p
  rw [uncoveredPage, coveredByChapter_iff_pairs, hsl]
  simp [buildRanges]

theorem uncovered_iff_cons (anchors : List Anchor) (total : Int) (a : Anchor)
    (rest : List Anchor) (hsl : sortAnchors anchors = a :: rest)
    (hv : ∀ x ∈ anchors, x.page_index ≤ total - 1) :
    ∀ p, uncoveredPage anchors total p ↔ (0 ≤ p ∧ p < a.page_index) := by
  intro p
  have hv2 : ∀ x ∈ sortAnchors anchors, x.page_index ≤ total - 1 :=
    fun x hx => hv x ((sortAnchors_mem anchors x).1 hx)
  have hchain := buildRanges_chain (sortAnchors anchors) total
    (sortAnchors_sorted anchors) hv2 a rest hsl
  have hcov := rangeChain_cover _ _ _ hchain p
  have hmem : a ∈ anchors := (sortAnchors_mem anchors a).1 (by rw [hsl]; simp)
  have hab : a.page_index ≤ total - 1 := hv a hmem
  rw [uncoveredPage, coveredByChapter_iff_pairs, hcov]
  constructor
  · rintro ⟨h1, h2, h3⟩
    refine ⟨h1, ?_⟩
    by_contra hge
    exact h3 ⟨by omega, by omega⟩
  · rintro ⟨h1, h2⟩
    exact ⟨h1, by omega, by omega⟩

theorem maximalRun_iff_nil (anchors : List Anchor) (total : Int)
    (hsl : sortAnchors anchors = []) :
    ∀ s e, maximalGapRun anchors total s e ↔
      (s = 0 ∧ e = total - 1 ∧ 0 < total) := by
  intro s e
  have hu := uncovered_iff_nil anchors total hsl
  rw [maximalGapRun]
  simp only [hu]
  constructor
  · rintro ⟨h1, h2, h3, h4⟩
    have hs0 := h2 s (le_refl s) h1
    have he0 := h2 e h1 (le_refl e)
    refine ⟨by omega, by omega, by omega⟩
  · rintro ⟨h1, h2, h3⟩
    subst h1
    subst h2
    refine ⟨by omega, ?_, by omega, by omega⟩
    intro p hp1 hp2
    exact ⟨by omega, by omega⟩

theorem maximalRun_iff_cons (anchors : List Anchor) (total : Int) (a : Anchor)
    (rest : List Anchor) (hsl : sortAnchors anchors = a :: rest)
    (hv : ∀ x ∈ anchors, x.page_index ≤ total - 1) :
    ∀ s e, maximalGapRun anchors total s e ↔
      (s = 0 ∧ e = a.page_index - 1 ∧ 0 < a.page_index) := by
  intro s e
  have hu := uncovered_iff_cons anchors total a rest hsl hv
  rw [maximalGapRun]
  simp only [hu]
  constructor
  · rintro ⟨h1, h2, h3, h4⟩
    have hs0 := h2 s (le_refl s) h1
    have he0 := h2 e h1 (le_refl e)
    refine ⟨by omega, by omega, by omega⟩
  · rintro ⟨h1, h2, h3⟩
    subst h1
    subst h2
    refine ⟨by omega, ?_, by omega, by omega⟩
    intro p hp1 hp2
    exact ⟨by omega, by omega⟩

/-- Claim C6 counterexample: with `total_pages = 10` and anchors at pages 12
and 15 (out of range), pages 0-9 are all uncovered — one maximal run
`[0, 9]` — yet the only gap segment emitted is "Unidentified Pages 1-12",
which covers `[0, 11]`, not exactly that run. -/
theorem claim_C6_counterexample :
    (calculate_page_ranges [Anchor.mk "A" 12 0, Anchor.mk "B" 15 0] 10).2 =
      [Segment.mk "Unidentified Pages 1-12" 1 12 12] ∧
    maximalGapRun [Anchor.mk "A" 12 0, Anchor.mk "B" 15 0] 10 0 9 ∧
    ∀ g ∈ (calculate_page_ranges [Anchor.mk "A" 12 0, Anchor.mk "B" 15 0] 10).2,
      ¬ (g.start_page = 0 + 1 ∧ g.end_page = 9 + 1) := by
  refine ⟨by decide, ⟨by decide, ?_, ?_, ?_⟩, by decide⟩
  · intro p hp1 hp2
    refine ⟨by omega, by omega, ?_⟩
    rw [coveredByChapter]
    rintro ⟨seg, hseg, h1, h2⟩
    have : seg = Segment.mk "A" 13 15 3 := by
      have hsec : (calculate_page_ranges
          [Anchor.mk "A" 12 0, Anchor.mk "B" 15 0] 10).1 =
          [Segment.mk "A" 13 15 3] := by decide
      rw [hsec] at hseg
      simpa using hseg
    subst this
    simp at h1 h2
    omega
  · rw [uncoveredPage]
    intro h
    omega
  · rw [uncoveredPage]
    rintro ⟨h1, h2, h3⟩
    refine h3 ?_
    rw [coveredByChapter]
    refine ⟨Segment.mk "A" 13 15 3, ?_, by omega, by omega⟩
    rw [show (calculate_page_ranges
        [Anchor.mk "A" 12 0, Anchor.mk "B" 15 0] 10).1 =
        [Segment.mk "A" 13 15 3] from by decide]
    simp

/-- Claim C6 amended: provided every anchor's `page_index` is below
`total_pages`, the gap segments of `calculate_page_ranges` are exactly the
maximal runs of document pages not covered by any emitted chapter segment:
each maximal run `[s, e]` has exactly one gap segment with 1-based range
`[s+1, e+1]`, and every gap segment covers exactly such a run, is named
"Unidentified Pages <start>-<end>" with its 1-based endpoints, and has
positive length (a zero-length gap is never emitted). -/
theorem claim_C6_amended (anchors : List Anchor) (total_pages : Int)
    (hv : ∀ a ∈ anchors, a.page_index < total_pages) :
    (∀ s e, maximalGapRun anchors total_pages s e →
      ∃! g, g ∈ (calculate_page_ranges anchors total_pages).2 ∧
        g.start_page = s + 1 ∧ g.end_page = e + 1) ∧
    (∀ g ∈ (calculate_page_ranges anchors total_pages).2,
      maximalGapRun anchors total_pages (g.start_page - 1) (g.end_page - 1) ∧
      g.name = "Unidentified Pages " ++ toString g.start_page ++ "-"
        ++ toString g.end_page ∧
      g.start_page ≤ g.end_page) := by
  have hv2 : ∀ a ∈ anchors, a.page_index ≤ total_pages - 1 := by
    intro a ha
    have := hv a ha
    omega
  cases hsl : sortAnchors anchors with
  | nil =>
      have hg : (calculate_page_ranges anchors total_pages).2 =
          if 0 < total_pages then [endGapSeg 0 total_pages] else [] := by
        rw [calc_empty anchors total_pages hsl]
      have hrun := maximalRun_iff_nil anchors total_pages hsl
      constructor
      · intro s e hm
        rw [hrun] at hm
        obtain ⟨hs, he, hpos⟩ := hm
        subst hs
        subst he
        rw [hg, if_pos hpos]
        refine ⟨endGapSeg 0 total_pages, ⟨by simp, rfl, ?_⟩, ?_⟩
        · simp only [endGapSeg]
          omega
        · rintro g' ⟨hg', -, -⟩
          simpa using hg'
      · intro g hgmem
        rw [hg] at hgmem
        by_cases hpos : 0 < total_pages
        · rw [if_pos hpos] at hgmem
          have hgeq : g = endGapSeg 0 total_pages := by simpa using hgmem
          subst hgeq
          refine ⟨?_, rfl, ?_⟩
          · rw [hrun]
            simp only [endGapSeg]
            and_intros <;> first
              | trivial
              | omega
          · simp only [endGapSeg]
            omega
        · rw [if_neg hpos] at hgmem
          simp at hgmem
  | cons a rest =>
      have hg := calc_gaps_of_chain anchors total_pages a rest hsl hv2
      have hrun := maximalRun_iff_cons anchors total_pages a rest hsl hv2
      constructor
      · intro s e hm
        rw [hrun] at hm
        obtain ⟨hs, he, hpos⟩ := hm
        subst hs
        subst he
        rw [hg, if_pos hpos]
        refine ⟨midGapSeg 0 a.page_index, ⟨by simp, rfl, rfl⟩, ?_⟩
        rintro g' ⟨hg', -, -⟩
        simpa using hg'
      · intro g hgmem
        rw [hg] at hgmem
        by_cases hpos : 0 < a.page_index
        · rw [if_pos hpos] at hgmem
          have hgeq : g = midGapSeg 0 a.page_index := by simpa using hgmem
          subst hgeq
          refine ⟨?_, rfl, ?_⟩
          · rw [hrun]
            simp only [midGapSeg]
            and_intros <;> first
              | trivial
              | omega
          · simp only [midGapSeg]
            omega
        · rw [if_neg hpos] at hgmem
          simp at hgmem

theorem claim_C6_witness :
    (∀ a ∈ [Anchor.mk "Ch1" 2 0], a.page_index < 10) ∧
    (∃! g, g ∈ (calculate_page_ranges [Anchor.mk "Ch1" 2 0] 10).2 ∧
      g.start_page = 0 + 1 ∧ g.end_page = 1 + 1) :=
  ⟨by decide,
    (claim_C6_amended [Anchor.mk "Ch1" 2 0] 10 (by decide)).1 0 1
      (by
        rw [maximalRun_iff_cons [Anchor.mk "Ch1" 2 0] 10 (Anchor.mk "Ch1" 2 0) []
          (by decide) (by decide)]
        decide)⟩
